import Mathlib

/-!
Verification of the XAML insert-menu extraction script.

A shallow embedding of `scripts/parse_xaml_to_json.py`: the text-normalizer
functions (`clean_header`, `clean_tag`), the recursive menu-tree classifier
(`parse_menu_item_recursive`) and the root-level pass
(`parse_xaml_insert_menu`), together with theorems checking the
specification's claims about them.

Embedding conventions:
* Python strings are Lean `String`s; character-level work happens on `.data`
  (`List Char`).
* `xml.etree` elements become the `Elem` tree: a tag name, an attribute list
  (`elem.get(name, '')` is `getAttr`), and a child list.  `ElemList` is a
  specialized list type so that the classifier can recurse structurally.
* Python dicts (insertion-ordered, overwrite-on-assignment) become
  association lists with `dictSet` / `pyUpdate` mirroring `d[k] = v` and
  `d.update(other)`.
* The JSON-ish values the script builds become `MenuVal` (object / array /
  string).  Python truthiness of those values is `pyTruthy`.
* The two `re.sub` calls of `clean_header` are implemented as single-pass
  character scans (`subUpperRun`, `subLowerUpper`); a comment at each one
  argues the equivalence with the regex semantics.
-/

set_option autoImplicit false

/-! ## Character classes used by `clean_header`'s regexes -/

/-- The class `[A-Z]` of the source regexes. -/
def isUpperLetter (c : Char) : Bool := decide ('A' ≤ c ∧ c ≤ 'Z')

/-- The class `[a-z]` of the source regexes. -/
def isLowerLetter (c : Char) : Bool := decide ('a' ≤ c ∧ c ≤ 'z')

/-- The class `\d` of the source regex `([a-z\d])([A-Z])`, on the ASCII inputs
the script processes. -/
def isDigitChar (c : Char) : Bool := decide ('0' ≤ c ∧ c ≤ '9')

/-- True when the list starts with an uppercase letter followed by a
lowercase letter. -/
def upperThenLowerAhead : List Char → Bool
  | b :: c :: _ => isUpperLetter b && isLowerLetter c
  | _ => false

/-- True when the list starts with an uppercase letter. -/
def upperAhead : List Char → Bool
  | b :: _ => isUpperLetter b
  | _ => false

/-- The substitution `re.sub(r'([A-Z]+)([A-Z][a-z])', r'\1 \2', s)`.

The regex matches a maximal run of at least two uppercase letters followed by
one lowercase letter, and puts a space before the run's last uppercase
letter.  Equivalently (and this is what the scan below does): a space is
inserted between positions `i` and `i+1` exactly when `s[i]` and `s[i+1]` are
uppercase and `s[i+2]` is lowercase.  Each uppercase run followed by a
lowercase letter contains exactly one such boundary, matches of the regex
cannot overlap (the lowercase letter ends the match), and the replacement
only inserts a space, so the left-to-right regex rewrite and the pointwise
insertion agree. -/
def subUpperRun : List Char → List Char
  | [] => []
  | a :: rest =>
    (if isUpperLetter a && upperThenLowerAhead rest then [a, ' '] else [a]) ++ subUpperRun rest

/-- The substitution `re.sub(r'([a-z\d])([A-Z])', r'\1 \2', s)`.

A match is a lowercase-or-digit character directly followed by an uppercase
letter; the replacement inserts a space between the two.  Two matches can
never overlap (the second character of a match is uppercase and so can never
start a match), so the left-to-right regex rewrite is the same as inserting a
space at every qualifying boundary, which is what this scan does. -/
def subLowerUpper : List Char → List Char
  | [] => []
  | a :: rest =>
    (if (isLowerLetter a || isDigitChar a) && upperAhead rest then [a, ' '] else [a]) ++
      subLowerUpper rest

/-- The replacement `result.replace('_', ' ')` — a single-character pattern,
hence a map. -/
def underscoreToSpace (l : List Char) : List Char :=
  l.map (fun c => if c = '_' then ' ' else c)

/-- The test `header.startswith` for an opening brace. -/
def startsWithLBrace : List Char → Bool
  | '{' :: _ => true
  | _ => false

/-- The test `header.endswith` for a closing brace. -/
def endsWithRBrace (l : List Char) : Bool := decide (l.getLast? = some '}')

/-- The search `re.search(r'\.([^.}]+)}$', header)`, returning `match.group(1)`.

The pattern is anchored at the end of the string, so a match exists exactly
when the string ends in `}` and the segment between the last `.` and that
final `}` is non-empty and free of `.` and `}`; the group is that segment.
Working on the reversed list, the segment is the maximal run of
non-`.`/non-`}` characters after the final `}`, and the run must be stopped
by a `.`. -/
def extractIdent (l : List Char) : Option (List Char) :=
  match l.reverse with
  | '}' :: rest =>
    let seg := rest.takeWhile (fun c => decide (c ≠ '.' ∧ c ≠ '}'))
    match rest.dropWhile (fun c => decide (c ≠ '.' ∧ c ≠ '}')) with
    | '.' :: _ => if seg.isEmpty then none else some seg.reverse
    | _ => none
  | _ => none

/-- The function `clean_header` of the script: strip a `{...}` resource reference down to
the identifier after the last dot, split PascalCase with spaces and replace
underscores; otherwise return the input unchanged. -/
def clean_header (header : String) : String :=
  if header = "" then ""
  else if startsWithLBrace header.data && endsWithRBrace header.data then
    match extractIdent header.data with
    | some seg => String.mk (underscoreToSpace (subLowerUpper (subUpperRun seg)))
    | none => header
  else header

/-! ## `clean_tag`: the five XML entity replacements, in source order.

Each function is `str.replace(pattern, replacement)` for one concrete
pattern: a left-to-right scan replacing non-overlapping occurrences and
resuming after the replacement. -/

/-- The replacement `tag.replace('&lt;', '<')`. -/
def replaceLt : List Char → List Char
  | '&' :: 'l' :: 't' :: ';' :: rest => '<' :: replaceLt rest
  | c :: rest => c :: replaceLt rest
  | [] => []

/-- The replacement `tag.replace('&gt;', '>')`. -/
def replaceGt : List Char → List Char
  | '&' :: 'g' :: 't' :: ';' :: rest => '>' :: replaceGt rest
  | c :: rest => c :: replaceGt rest
  | [] => []

/-- The replacement `tag.replace('&amp;', '&')`. -/
def replaceAmp : List Char → List Char
  | '&' :: 'a' :: 'm' :: 'p' :: ';' :: rest => '&' :: replaceAmp rest
  | c :: rest => c :: replaceAmp rest
  | [] => []

/-- The replacement `tag.replace` of the quot entity with a double quote. -/
def replaceQuot : List Char → List Char
  | '&' :: 'q' :: 'u' :: 'o' :: 't' :: ';' :: rest => '"' :: replaceQuot rest
  | c :: rest => c :: replaceQuot rest
  | [] => []

/-- The replacement `tag.replace` of the apos entity with an apostrophe. -/
def replaceApos : List Char → List Char
  | '&' :: 'a' :: 'p' :: 'o' :: 's' :: ';' :: rest => '\'' :: replaceApos rest
  | c :: rest => c :: replaceApos rest
  | [] => []

/-- The function `clean_tag` of the script: unescape the five XML entities in the source's
order — `&lt;`, `&gt;`, `&amp;`, `&quot;`, `&apos;`. -/
def clean_tag (tag : String) : String :=
  if tag = "" then ""
  else String.mk (replaceApos (replaceQuot (replaceAmp (replaceGt (replaceLt tag.data)))))

/-! ## The element tree (`xml.etree.ElementTree.Element`) -/

mutual
/-- An XML element: tag name, attributes, children in document order. -/
inductive Elem where
  | mk (tag : String) (attrs : List (String × String)) (children : ElemList)

/-- Children of an element.  A specialized list type, so that the classifier
below can be defined by mutual structural recursion (and hence computes by
`rfl`/`decide`). -/
inductive ElemList where
  | nil
  | cons (head : Elem) (tail : ElemList)
end

def Elem.tag : Elem → String
  | .mk t _ _ => t

def Elem.attrs : Elem → List (String × String)
  | .mk _ a _ => a

def Elem.children : Elem → ElemList
  | .mk _ _ c => c

def ElemList.toList : ElemList → List Elem
  | .nil => []
  | .cons e rest => e :: rest.toList

/-- The lookup `elem.get(name, '')`: attribute lookup with empty default. -/
def getAttr : List (String × String) → String → String
  | [], _ => ""
  | (k, v) :: rest, name => if k = name then v else getAttr rest name

def Elem.get (e : Elem) (name : String) : String := getAttr e.attrs name

/-- Whether the first list is a prefix of the second. -/
def isPrefixList : List Char → List Char → Bool
  | [], _ => true
  | _ :: _, [] => false
  | a :: as, b :: bs => if a = b then isPrefixList as bs else false

/-- The test `s.endswith(suffix)` on character lists. -/
def endsWithList (s suffix : List Char) : Bool := isPrefixList suffix.reverse s.reverse

/-- The test `item.tag.endswith(suffix)`. -/
def tagEndsWith (e : Elem) (suffix : String) : Bool := endsWithList e.tag.data suffix.data

/-- The script's leaf test on the raw attributes: `click == 'Button_Click'
and tag` (it appears twice in the source: once for the node itself, once for
each child). -/
def rawLeafTest (c : Elem) : Prop :=
  c.get "Click" = "Button_Click" ∧ c.get "Tag" ≠ ""

instance (c : Elem) : Decidable (rawLeafTest c) := by
  unfold rawLeafTest; infer_instance

/-! ## The output values (Python dicts / lists / strings) -/

/-- The JSON-ish structures the script builds: insertion-ordered string-keyed
objects, arrays, strings. -/
inductive MenuVal where
  | obj (entries : List (String × MenuVal))
  | arr (items : List MenuVal)
  | str (s : String)

/-- Python truthiness for the values above: empty dicts/lists/strings are
falsy. -/
def pyTruthy : MenuVal → Bool
  | .obj entries => !entries.isEmpty
  | .arr items => !items.isEmpty
  | .str s => !(s = "")

/-- The `item_data` dict built for a leaf item: `{'tag': ..,
'description': ..}`, plus `'label'` when the raw `Icon` attribute is
truthy. -/
def leafObj (tag description icon : String) : MenuVal :=
  .obj (("tag", .str tag) :: ("description", .str description) ::
    (if icon = "" then [] else [("label", .str icon)]))

/-- Python dict assignment `d[k] = v`: overwrite the value in place when the
key exists (keeping the key's original position), else append the pair. -/
def dictSet : List (String × MenuVal) → String → MenuVal → List (String × MenuVal)
  | [], k, v => [(k, v)]
  | (k', v') :: rest, k, v =>
    if k' = k then (k', v) :: rest else (k', v') :: dictSet rest k v

/-- Python dict lookup `d.get(k)` (first — and, with `dictSet` discipline,
only — occurrence of the key). -/
def dictGet : List (String × MenuVal) → String → Option MenuVal
  | [], _ => none
  | (k', v) :: rest, k => if k' = k then some v else dictGet rest k

/-- Python `d.update(entries)`: assign every pair of `entries` into `d`, in
order. -/
def pyUpdate (d entries : List (String × MenuVal)) : List (String × MenuVal) :=
  entries.foldl (fun acc kv => dictSet acc kv.1 kv.2) d

/-! ## The recursive classifier (`parse_menu_item_recursive`) -/

/-- One iteration of the child-bucketing loop: given the already parsed
child (`parsed_child = parse_menu_item_recursive child`), skip `None`
results, append leaf items to `leaf_items` (`st.1`) and assign subcategories
into `subcategories` (`st.2`) under their cleaned header when that is
non-empty. -/
def classify_step (st : List MenuVal × List (String × MenuVal)) (child : Elem)
    (parsed_child : Option MenuVal) : List MenuVal × List (String × MenuVal) :=
  match parsed_child with
  | none => st
  | some pc =>
    let child_header := clean_header (child.get "Header")
    if rawLeafTest child then
      (st.1 ++ [pc], st.2)
    else if child_header ≠ "" then (st.1, dictSet st.2 child_header pc)
    else st

mutual
/-- The function `parse_menu_item_recursive` of the script.  Skip separators; return a
leaf `item_data` when the raw `Click` attribute is `'Button_Click'` and the
raw `Tag` attribute is truthy; otherwise bucket the `MenuItem` children into
`leaf_items` and `subcategories` and shape the result.  (The source also
computes `clean_tooltip_text`, which it never uses; that dead assignment is
omitted here.) -/
def parse_menu_item_recursive : Elem → Option MenuVal
  | .mk tagName attrs childElems =>
    if endsWithList tagName.data "Separator".data then none
    else
      let header := getAttr attrs "Header"
      let tag := getAttr attrs "Tag"
      let click := getAttr attrs "Click"
      let clean_header_text := clean_header header
      let clean_tag_text := clean_tag tag
      if click = "Button_Click" ∧ tag ≠ "" then
        some (leafObj clean_tag_text clean_header_text (getAttr attrs "Icon"))
      else if ((ElemList.toList childElems).filter
          (fun c => endsWithList c.tag.data "MenuItem".data)).isEmpty then
        none
      else
        let st := classify_children ([], []) childElems
        if !st.1.isEmpty && !st.2.isEmpty then
          some (.obj (pyUpdate [("direct", .arr st.1)] st.2))
        else if !st.1.isEmpty then some (.arr st.1)
        else if !st.2.isEmpty then some (.obj st.2)
        else none

/-- The `for child in children:` loop of the source, folded over all
children; children whose tag does not end in `MenuItem` are skipped here
instead of being filtered out beforehand, which processes exactly the same
children in the same order. -/
def classify_children : List MenuVal × List (String × MenuVal) → ElemList →
    List MenuVal × List (String × MenuVal)
  | st, .nil => st
  | st, .cons child rest =>
    if endsWithList child.tag.data "MenuItem".data then
      classify_children (classify_step st child (parse_menu_item_recursive child)) rest
    else classify_children st rest
end

/-! ## The root-level pass (`parse_xaml_insert_menu`) -/

/-- The `for menu_item in root:` loop: keep `MenuItem` children with a
truthy raw header, classify them, and assign truthy results into the result
dict under the cleaned header. -/
def rootLoop (result : List (String × MenuVal)) : ElemList → List (String × MenuVal)
  | .nil => result
  | .cons menu_item rest =>
    if endsWithList menu_item.tag.data "MenuItem".data then
      if menu_item.get "Header" = "" then rootLoop result rest
      else
        let section_key := clean_header (menu_item.get "Header")
        match parse_menu_item_recursive menu_item with
        | some v =>
          if pyTruthy v then rootLoop (dictSet result section_key v) rest
          else rootLoop result rest
        | none => rootLoop result rest
    else rootLoop result rest

/-- The synthetic-root wrapping performed before parsing. -/
def wrap_content (xaml_content : String) : String :=
  "<root xmlns:x='http://schemas.microsoft.com/winfx/2006/xaml' xmlns:wpf='clr-namespace:Calcpad.Wpf'>"
    ++ xaml_content ++ "</root>"

/-- The function `parse_xaml_insert_menu` of the script.  The `xml.etree` parser is
standard-library code outside this repository; it is passed in as a function
that either fails (raises `ParseError` — the `Except.error` case) or
produces the parsed element tree.  On failure the script's `except` handler
returns the empty dict. -/
def parse_xaml_insert_menu (fromstring : String → Except String Elem)
    (xaml_content : String) : List (String × MenuVal) :=
  match fromstring (wrap_content xaml_content) with
  | .error _ => []
  | .ok root => rootLoop [] root.children

/-! ## Specification-side derived definitions -/

/-- A value shaped like a leaf `item_data` dict. -/
def IsLeafAction (v : MenuVal) : Prop :=
  ∃ t d i, v = leafObj t d i

/-- The leaf `item_data` produced for a given element. -/
def leafValOf (c : Elem) : MenuVal :=
  leafObj (clean_tag (c.get "Tag")) (clean_header (c.get "Header")) (c.get "Icon")

/-- The contribution of one child to `leaf_items`: present exactly when the
child is a `MenuItem`, classifies to a non-`None` value and passes the raw
leaf test. -/
def bucketLeaf (c : Elem) : Option MenuVal :=
  if endsWithList c.tag.data "MenuItem".data then
    match parse_menu_item_recursive c with
    | none => none
    | some v => if rawLeafTest c then some v else none
  else none

/-- The contribution of one child to `subcategories`: present exactly when
the child is a `MenuItem`, classifies to a non-`None` value, fails the raw
leaf test and has a non-empty cleaned header. -/
def bucketSub (c : Elem) : Option (String × MenuVal) :=
  if endsWithList c.tag.data "MenuItem".data then
    match parse_menu_item_recursive c with
    | none => none
    | some v =>
      if rawLeafTest c then none
      else if clean_header (c.get "Header") ≠ "" then
        some (clean_header (c.get "Header"), v)
      else none
  else none

/-- All leaf contributions of a child list, in document order. -/
def leafResults (l : List Elem) : List MenuVal := l.filterMap bucketLeaf

/-- All subcategory contributions of a child list, in document order
(duplicate keys still present). -/
def subEntries (l : List Elem) : List (String × MenuVal) := l.filterMap bucketSub

/-- The cleaned headers of the subcategory-eligible children, in document
order. -/
def subcatHeaders (l : List Elem) : List String := (subEntries l).map Prod.fst

/-- Insert a key into a key list the way `dictSet` does: keep it in place if
present, else append. -/
def insertKey (ks : List String) (k : String) : List String :=
  if k ∈ ks then ks else ks ++ [k]

/-- First-occurrence deduplication, with an explicit seen-accumulator so the
function is structurally recursive. -/
def dedupFirstAux (seen : List String) : List String → List String
  | [] => []
  | k :: rest =>
    if k ∈ seen then dedupFirstAux seen rest
    else k :: dedupFirstAux (seen ++ [k]) rest

/-- Keep the first occurrence of every element, preserving order. -/
def dedupFirst (l : List String) : List String := dedupFirstAux [] l

/-- Structural induction for `ElemList` (the automatically generated
eliminator of the mutual inductive carries two motives, which the
`induction` tactic does not accept). -/
def ElemList.inductionOn {motive : ElemList → Prop} (l : ElemList)
    (nil : motive .nil) (cons : ∀ e rest, motive rest → motive (.cons e rest)) : motive l :=
  match l with
  | .nil => nil
  | .cons e rest => cons e rest (rest.inductionOn nil cons)

/-! ## Concrete example elements used by the claim checks -/

/-- A leaf menu item with tag "a". -/
def exLeafA : Elem := .mk "MenuItem" [("Tag", "a"), ("Click", "Button_Click")] .nil

/-- A leaf menu item with tag "b". -/
def exLeafB : Elem := .mk "MenuItem" [("Tag", "b"), ("Click", "Button_Click")] .nil

/-- A leaf menu item with a header. -/
def exLeafT1 : Elem :=
  .mk "MenuItem" [("Header", "L"), ("Click", "Button_Click"), ("Tag", "t1")] .nil

/-- A subcategory node with header "K" holding `exLeafA`. -/
def exSubKA : Elem := .mk "MenuItem" [("Header", "K")] (.cons exLeafA .nil)

/-- A subcategory node with header "K" holding `exLeafB`. -/
def exSubKB : Elem := .mk "MenuItem" [("Header", "K")] (.cons exLeafB .nil)

/-- A subcategory node with header "K2" holding `exLeafA`. -/
def exSubK2 : Elem := .mk "MenuItem" [("Header", "K2")] (.cons exLeafA .nil)

/-- A container with two subcategory children sharing cleaned header "K". -/
def exDupKeyNode : Elem :=
  .mk "MenuItem" [("Header", "S")] (.cons exSubKA (.cons exSubKB .nil))

/-- A container with three subcategory children whose cleaned headers are
"K", "K2" and again "K". -/
def exTripleNode : Elem :=
  .mk "MenuItem" [("Header", "S")] (.cons exSubKA (.cons exSubK2 (.cons exSubKB .nil)))

/-- A separator element that nevertheless carries the leaf attributes. -/
def exSeparator : Elem := .mk "Separator" [("Click", "Button_Click"), ("Tag", "x")] .nil

/-- A plain leaf menu item. -/
def exLeafX : Elem := .mk "MenuItem" [("Click", "Button_Click"), ("Tag", "x")] .nil

/-- A subcategory node with header "Sub" holding `exLeafB`. -/
def exSubSub : Elem := .mk "MenuItem" [("Header", "Sub")] (.cons exLeafB .nil)

/-- A mixed container: one leaf child, one subcategory child. -/
def exMixedNode : Elem :=
  .mk "MenuItem" [("Header", "S")] (.cons exLeafT1 (.cons exSubSub .nil))

/-- A subcategory node whose header is literally "direct". -/
def exSubDirect : Elem := .mk "MenuItem" [("Header", "direct")] (.cons exLeafB .nil)

/-- A mixed container whose subcategory child is named "direct". -/
def exDirectNode : Elem :=
  .mk "MenuItem" [("Header", "S")] (.cons exLeafT1 (.cons exSubDirect .nil))

/-- A container with a leaf child and a childless non-leaf child whose
header is "direct" (the childless child is pruned by the classifier). -/
def exPrunedDirectNode : Elem :=
  .mk "MenuItem" [("Header", "S")]
    (.cons exLeafT1 (.cons (.mk "MenuItem" [("Header", "direct")] .nil) .nil))

/-- A root child that itself passes the leaf test and also has children. -/
def exRootLeaf : Elem :=
  .mk "MenuItem" [("Header", "H"), ("Click", "Button_Click"), ("Tag", "t")]
    (.cons (.mk "MenuItem" [("Header", "X"), ("Click", "Button_Click"), ("Tag", "u")] .nil) .nil)

/-- The whitespace trimming of Python's `str.strip()` with no arguments, on
the character list of a string: drop whitespace from both ends. -/
def trimmedData (s : String) : List Char :=
  ((s.data.dropWhile Char.isWhitespace).reverse.dropWhile Char.isWhitespace).reverse

/-! ## Basic lemmas about strings and the entity replacements -/

theorem string_eq_empty_iff {s : String} : s = "" ↔ s.data = [] := by
  cases s with
  | mk l =>
    constructor
    · intro h
      rw [h]
    · intro h
      rw [show l = [] from h]

theorem replaceLt_eq_nil_iff (s : List Char) : replaceLt s = [] ↔ s = [] := by
  rw [replaceLt.eq_def]
  split <;> simp_all

theorem replaceGt_eq_nil_iff (s : List Char) : replaceGt s = [] ↔ s = [] := by
  rw [replaceGt.eq_def]
  split <;> simp_all

theorem replaceAmp_eq_nil_iff (s : List Char) : replaceAmp s = [] ↔ s = [] := by
  rw [replaceAmp.eq_def]
  split <;> simp_all

theorem replaceQuot_eq_nil_iff (s : List Char) : replaceQuot s = [] ↔ s = [] := by
  rw [replaceQuot.eq_def]
  split <;> simp_all

theorem replaceApos_eq_nil_iff (s : List Char) : replaceApos s = [] ↔ s = [] := by
  rw [replaceApos.eq_def]
  split <;> simp_all

theorem clean_tag_eq_empty_iff (s : String) : clean_tag s = "" ↔ s = "" := by
  by_cases h : s = ""
  · simp [clean_tag, h]
  · rw [clean_tag, if_neg h]
    rw [string_eq_empty_iff]
    show replaceApos _ = [] ↔ _
    rw [replaceApos_eq_nil_iff, replaceQuot_eq_nil_iff, replaceAmp_eq_nil_iff,
      replaceGt_eq_nil_iff, replaceLt_eq_nil_iff, ← string_eq_empty_iff]

theorem isPrefixList_cons_iff (a : Char) (as l : List Char) :
    isPrefixList (a :: as) l = true ↔ ∃ tl, l = a :: tl ∧ isPrefixList as tl = true := by
  cases l with
  | nil => simp [isPrefixList]
  | cons b bs =>
    rw [isPrefixList]
    split
    · rename_i hab
      subst hab
      simp
    · rename_i hab
      constructor
      · intro h
        exact absurd h (by simp)
      · rintro ⟨tl, htl, -⟩
        injection htl with h1 h2
        exact absurd h1.symm hab

theorem menuItem_not_separator {s : List Char} (h : endsWithList s "MenuItem".data = true) :
    endsWithList s "Separator".data = false := by
  unfold endsWithList at h ⊢
  rw [show ("MenuItem".data).reverse = ['m', 'e', 't', 'I', 'u', 'n', 'e', 'M'] from rfl] at h
  rw [show ("Separator".data).reverse = ['r', 'o', 't', 'a', 'r', 'a', 'p', 'e', 'S'] from rfl]
  rw [isPrefixList_cons_iff] at h
  obtain ⟨tl, hl, -⟩ := h
  rw [hl]
  simp [isPrefixList]

/-! ## Lemmas about the Python-dict model -/

theorem dictSet_keys (d : List (String × MenuVal)) (k : String) (v : MenuVal) :
    (dictSet d k v).map Prod.fst = insertKey (d.map Prod.fst) k := by
  induction d with
  | nil => simp [dictSet, insertKey]
  | cons kv rest ih =>
    obtain ⟨k', v'⟩ := kv
    rw [dictSet]
    split
    · rename_i hk
      subst hk
      rw [List.map_cons, List.map_cons, insertKey, if_pos (by simp)]
    · rename_i hk
      have hkk : ¬ k = k' := fun h => hk h.symm
      rw [List.map_cons, List.map_cons, ih, insertKey, insertKey]
      by_cases hmem : k ∈ rest.map Prod.fst
      · rw [if_pos hmem, if_pos (by simp [hmem])]
      · rw [if_neg hmem, if_neg (by simp [hkk, hmem])]
        rfl

theorem dictGet_dictSet (d : List (String × MenuVal)) (k : String) (v : MenuVal) (k' : String) :
    dictGet (dictSet d k v) k' = if k = k' then some v else dictGet d k' := by
  induction d with
  | nil => simp [dictSet, dictGet]
  | cons kv rest ih =>
    obtain ⟨k1, v1⟩ := kv
    rw [dictSet]
    split
    · rename_i hk
      subst hk
      by_cases h1 : k1 = k'
      · rw [dictGet, if_pos h1, if_pos h1]
      · rw [dictGet, if_neg h1, if_neg h1, dictGet, if_neg h1]
    · rename_i hk
      rw [dictGet, ih]
      by_cases h1 : k1 = k'
      · rw [if_pos h1, if_neg (fun h : k = k' => hk (h1.trans h.symm)), dictGet, if_pos h1]
      · rw [if_neg h1, dictGet, if_neg h1]

theorem mem_dictSet {kv : String × MenuVal} {d : List (String × MenuVal)} {k : String}
    {v : MenuVal} (h : kv ∈ dictSet d k v) : kv ∈ d ∨ kv = (k, v) := by
  induction d with
  | nil => simp [dictSet] at h; simp [h]
  | cons kv1 rest ih =>
    obtain ⟨k1, v1⟩ := kv1
    rw [dictSet] at h
    split at h
    · rename_i hk
      subst hk
      rcases List.mem_cons.mp h with h1 | h1
      · right; rw [h1]
      · left; exact List.mem_cons_of_mem _ h1
    · rcases List.mem_cons.mp h with h1 | h1
      · left; exact h1 ▸ List.mem_cons_self _ _
      · rcases ih h1 with h2 | h2
        · left; exact List.mem_cons_of_mem _ h2
        · right; exact h2

theorem pyUpdate_nil (d : List (String × MenuVal)) : pyUpdate d [] = d := rfl

theorem pyUpdate_cons (d : List (String × MenuVal)) (kv : String × MenuVal)
    (es : List (String × MenuVal)) :
    pyUpdate d (kv :: es) = pyUpdate (dictSet d kv.1 kv.2) es := rfl

theorem pyUpdate_append (d e1 e2 : List (String × MenuVal)) :
    pyUpdate d (e1 ++ e2) = pyUpdate (pyUpdate d e1) e2 := by
  simp [pyUpdate, List.foldl_append]

theorem mem_pyUpdate {kv : String × MenuVal} {es d : List (String × MenuVal)}
    (h : kv ∈ pyUpdate d es) : kv ∈ d ∨ kv ∈ es := by
  induction es generalizing d with
  | nil => left; exact h
  | cons kv1 rest ih =>
    rw [pyUpdate_cons] at h
    rcases ih h with h1 | h1
    · rcases mem_dictSet h1 with h2 | h2
      · left; exact h2
      · right; exact h2 ▸ List.mem_cons_self _ _
    · right; exact List.mem_cons_of_mem _ h1

theorem pyUpdate_keys (es d : List (String × MenuVal)) :
    (pyUpdate d es).map Prod.fst = (es.map Prod.fst).foldl insertKey (d.map Prod.fst) := by
  induction es generalizing d with
  | nil => rfl
  | cons kv rest ih =>
    rw [pyUpdate_cons, ih, dictSet_keys]
    rfl

theorem mem_insertKey {k' : String} {ks : List String} {k : String} :
    k' ∈ insertKey ks k ↔ k' ∈ ks ∨ k' = k := by
  unfold insertKey
  split
  · rename_i hk
    constructor
    · intro h; left; exact h
    · rintro (h | h)
      · exact h
      · exact h ▸ hk
  · simp

theorem foldl_insertKey_eq (hs : List String) : ∀ ks : List String,
    hs.foldl insertKey ks = ks ++ dedupFirstAux ks hs := by
  induction hs with
  | nil => intro ks; simp [dedupFirstAux]
  | cons h rest ih =>
    intro ks
    rw [List.foldl_cons, dedupFirstAux]
    by_cases hk : h ∈ ks
    · rw [insertKey, if_pos hk, if_pos hk, ih]
    · rw [insertKey, if_neg hk, if_neg hk, ih]
      simp

theorem dedupFirstAux_nodup (hs : List String) : ∀ seen : List String,
    (dedupFirstAux seen hs).Nodup ∧ ∀ k ∈ dedupFirstAux seen hs, k ∉ seen := by
  induction hs with
  | nil => intro seen; simp [dedupFirstAux]
  | cons h rest ih =>
    intro seen
    rw [dedupFirstAux]
    split
    · exact ih seen
    · rename_i hmem
      obtain ⟨ihn, ihs⟩ := ih (seen ++ [h])
      refine ⟨List.nodup_cons.mpr ⟨fun hin => ?_, ihn⟩, ?_⟩
      · exact ihs h hin (by simp)
      · intro k hk
        rcases List.mem_cons.mp hk with h1 | h1
        · exact h1 ▸ hmem
        · intro hks
          exact ihs k h1 (by simp [hks])

theorem dedupFirstAux_eq_filter (hs : List String) : ∀ seen : List String, hs.Nodup →
    dedupFirstAux seen hs = hs.filter (fun h => !decide (h ∈ seen)) := by
  induction hs with
  | nil => intro seen _; simp [dedupFirstAux]
  | cons h rest ih =>
    intro seen hnd
    obtain ⟨hnr, hndr⟩ := List.nodup_cons.mp hnd
    rw [dedupFirstAux]
    split
    · rename_i hmem
      rw [List.filter_cons_of_neg (by simp [hmem]), ih seen hndr]
    · rename_i hmem
      rw [List.filter_cons_of_pos (by simp [hmem]), ih (seen ++ [h]) hndr]
      congr 1
      apply List.filter_congr
      intro x hx
      have hxh : x ≠ h := fun he => hnr (he ▸ hx)
      simp [hxh]

theorem dictGet_eq_none_iff {d : List (String × MenuVal)} {k : String} :
    dictGet d k = none ↔ k ∉ d.map Prod.fst := by
  induction d with
  | nil => simp [dictGet]
  | cons kv rest ih =>
    obtain ⟨k1, v1⟩ := kv
    rw [dictGet, List.map_cons]
    by_cases h1 : k1 = k
    · subst h1
      simp
    · rw [if_neg h1, ih]
      constructor
      · intro h hmem
        rcases List.mem_cons.mp hmem with h2 | h2
        · exact h1 h2.symm
        · exact h h2
      · intro h h2
        exact h (List.mem_cons_of_mem _ h2)

theorem dictGet_pyUpdate_not_mem (es : List (String × MenuVal)) :
    ∀ (d : List (String × MenuVal)) (k : String), k ∉ es.map Prod.fst →
    dictGet (pyUpdate d es) k = dictGet d k := by
  induction es with
  | nil => intro d k _; rfl
  | cons kv rest ih =>
    intro d k hk
    rw [pyUpdate_cons, ih _ _ (fun h => hk (by simp [h])), dictGet_dictSet]
    rw [if_neg (fun h : kv.1 = k => hk (by simp [h]))]

theorem dictGet_pyUpdate_mem (es : List (String × MenuVal)) :
    ∀ (d : List (String × MenuVal)) (k : String) (v : MenuVal),
    (es.map Prod.fst).Nodup → dictGet es k = some v →
    dictGet (pyUpdate d es) k = some v := by
  induction es with
  | nil => intro d k v _ h; simp [dictGet] at h
  | cons kv rest ih =>
    intro d k v hnd hget
    obtain ⟨k1, v1⟩ := kv
    rw [pyUpdate_cons]
    rw [dictGet] at hget
    rw [List.map_cons] at hnd
    obtain ⟨hn1, hndr⟩ := List.nodup_cons.mp hnd
    by_cases h1 : k1 = k
    · subst h1
      rw [if_pos rfl] at hget
      rw [dictGet_pyUpdate_not_mem _ _ _ hn1, dictGet_dictSet, if_pos rfl]
      exact hget
    · rw [if_neg h1] at hget
      exact ih _ _ _ hndr hget

/-! ## Lemmas about the classifier -/

theorem leafResults_nil : leafResults [] = [] := rfl

theorem subEntries_nil : subEntries [] = [] := rfl

theorem leafResults_cons (c : Elem) (l : List Elem) :
    leafResults (c :: l) = (bucketLeaf c).toList ++ leafResults l := by
  unfold leafResults
  cases hb : bucketLeaf c <;> simp [hb]

theorem subEntries_cons (c : Elem) (l : List Elem) :
    subEntries (c :: l) = (bucketSub c).toList ++ subEntries l := by
  unfold subEntries
  cases hb : bucketSub c <;> simp [hb]

theorem classify_step_menuItem {c : Elem} (hmi : endsWithList c.tag.data "MenuItem".data = true)
    (st : List MenuVal × List (String × MenuVal)) :
    classify_step st c (parse_menu_item_recursive c)
      = (st.1 ++ (bucketLeaf c).toList, pyUpdate st.2 (bucketSub c).toList) := by
  unfold classify_step bucketLeaf bucketSub
  rw [hmi]
  cases hp : parse_menu_item_recursive c with
  | none => simp [pyUpdate]
  | some v =>
    simp only [if_true]
    by_cases hL : rawLeafTest c
    · simp [hL, pyUpdate]
    · simp only [if_neg hL]
      by_cases hh : clean_header (c.get "Header") ≠ ""
      · simp [hh, pyUpdate, pyUpdate_cons]
      · simp [hh, pyUpdate]

theorem classify_children_spec (l : ElemList) : ∀ st : List MenuVal × List (String × MenuVal),
    classify_children st l
      = (st.1 ++ leafResults l.toList, pyUpdate st.2 (subEntries l.toList)) := by
  induction l using ElemList.inductionOn with
  | nil =>
    intro st
    simp [classify_children, ElemList.toList, leafResults_nil, subEntries_nil, pyUpdate_nil]
  | cons c rest ih =>
    intro st
    rw [classify_children]
    by_cases hmi : endsWithList c.tag.data "MenuItem".data = true
    · rw [if_pos hmi, ih, classify_step_menuItem hmi]
      simp [ElemList.toList, leafResults_cons, subEntries_cons, pyUpdate_append,
        List.append_assoc]
    · rw [if_neg hmi, ih]
      have hmi' : endsWithList c.tag.data "MenuItem".data = false := by
        cases h : endsWithList c.tag.data "MenuItem".data
        · rfl
        · exact absurd h hmi
      have hbl : bucketLeaf c = none := by rw [bucketLeaf, hmi']; rfl
      have hbs : bucketSub c = none := by rw [bucketSub, hmi']; rfl
      simp [ElemList.toList, leafResults_cons, subEntries_cons, hbl, hbs]

theorem parse_some_shape {c : Elem} {v : MenuVal} (h : parse_menu_item_recursive c = some v) :
    (∃ entries, v = MenuVal.obj entries) ∨ (∃ items, v = MenuVal.arr items) := by
  obtain ⟨t, a, ch⟩ := c
  simp only [parse_menu_item_recursive] at h
  split at h
  · exact absurd h (by simp)
  · split at h
    · rw [Option.some.injEq] at h
      exact Or.inl ⟨_, h.symm⟩
    · split at h
      · exact absurd h (by simp)
      · split at h
        · rw [Option.some.injEq] at h
          exact Or.inl ⟨_, h.symm⟩
        · split at h
          · rw [Option.some.injEq] at h
            exact Or.inr ⟨_, h.symm⟩
          · split at h
            · rw [Option.some.injEq] at h
              exact Or.inl ⟨_, h.symm⟩
            · exact absurd h (by simp)

theorem parse_of_rawLeaf {c : Elem} (hmi : endsWithList c.tag.data "MenuItem".data = true)
    (hl : rawLeafTest c) : parse_menu_item_recursive c = some (leafValOf c) := by
  obtain ⟨t, a, ch⟩ := c
  have hsep : endsWithList t.data "Separator".data = false := menuItem_not_separator hmi
  have hl' : getAttr a "Click" = "Button_Click" ∧ getAttr a "Tag" ≠ "" := hl
  simp only [parse_menu_item_recursive, hsep, Bool.false_eq_true, if_false, if_pos hl']
  rfl

theorem bucketLeaf_rawLeaf {c : Elem} (hmi : endsWithList c.tag.data "MenuItem".data = true)
    (hl : rawLeafTest c) : bucketLeaf c = some (leafValOf c) := by
  rw [bucketLeaf, hmi, parse_of_rawLeaf hmi hl]
  simp [hl]

theorem leafResults_eq_map_filter (l : List Elem) :
    leafResults l = (l.filter (fun c => endsWithList c.tag.data "MenuItem".data
      && decide (rawLeafTest c))).map leafValOf := by
  induction l with
  | nil => rfl
  | cons c rest ih =>
    rw [leafResults_cons, ih]
    by_cases hmi : endsWithList c.tag.data "MenuItem".data = true
    · by_cases hL : rawLeafTest c
      · rw [bucketLeaf_rawLeaf hmi hL, List.filter_cons_of_pos (by simp [hmi, hL])]
        simp
      · have hb : bucketLeaf c = none := by
          rw [bucketLeaf, hmi]
          cases hp : parse_menu_item_recursive c
          · rfl
          · simp [hL]
        rw [hb, List.filter_cons_of_neg (by simp [hL])]
        simp
    · have hmi' : endsWithList c.tag.data "MenuItem".data = false := by
        cases h : endsWithList c.tag.data "MenuItem".data
        · rfl
        · exact absurd h hmi
      have hb : bucketLeaf c = none := by rw [bucketLeaf, hmi']; rfl
      rw [hb, List.filter_cons_of_neg (by simp [hmi'])]
      simp

theorem subEntries_val {l : List Elem} {kv : String × MenuVal} (h : kv ∈ subEntries l) :
    ∃ c, parse_menu_item_recursive c = some kv.2 := by
  unfold subEntries at h
  rw [List.mem_filterMap] at h
  obtain ⟨c, -, hb⟩ := h
  refine ⟨c, ?_⟩
  rw [bucketSub] at hb
  split at hb
  · split at hb
    · exact absurd hb (by simp)
    · rename_i v hp
      split at hb
      · exact absurd hb (by simp)
      · split at hb
        · rw [Option.some.injEq] at hb
          rw [hp, ← hb]
        · exact absurd hb (by simp)
  · exact absurd hb (by simp)

theorem pyUpdate_keys_nodup (es d : List (String × MenuVal))
    (hd : (d.map Prod.fst).Nodup) : ((pyUpdate d es).map Prod.fst).Nodup := by
  rw [pyUpdate_keys, foldl_insertKey_eq]
  obtain ⟨hn, hns⟩ := dedupFirstAux_nodup (es.map Prod.fst) (d.map Prod.fst)
  rw [List.nodup_append]
  exact ⟨hd, hn, fun x hx hx2 => hns x hx2 hx⟩

theorem pyTruthy_leafObj (t d i : String) : pyTruthy (leafObj t d i) = true := by
  rw [leafObj, pyTruthy]
  simp

theorem pyUpdate_nil_left_ne {es : List (String × MenuVal)} (h : es ≠ []) :
    pyUpdate [] es ≠ [] := by
  intro hcon
  have hk := congrArg (List.map Prod.fst) hcon
  rw [pyUpdate_keys, foldl_insertKey_eq] at hk
  cases es with
  | nil => exact h rfl
  | cons kv rest =>
    rw [List.map_cons, List.map_nil, List.nil_append, dedupFirstAux] at hk
    rw [if_neg (by simp)] at hk
    exact absurd hk (by simp)

theorem isEmpty_false_of_ne_nil {α : Type} {l : List α} (h : l ≠ []) : l.isEmpty = false := by
  cases l
  · exact absurd rfl h
  · rfl

theorem parse_container_eq (t : String) (a : List (String × String)) (ch : ElemList)
    (hsep : endsWithList t.data "Separator".data = false)
    (hleaf : ¬ (getAttr a "Click" = "Button_Click" ∧ getAttr a "Tag" ≠ "")) :
    parse_menu_item_recursive (Elem.mk t a ch)
      = (if ((ElemList.toList ch).filter
            (fun c => endsWithList c.tag.data "MenuItem".data)).isEmpty then none
        else if !(leafResults ch.toList).isEmpty
            && !(pyUpdate [] (subEntries ch.toList)).isEmpty then
          some (.obj (pyUpdate [("direct", .arr (leafResults ch.toList))]
            (pyUpdate [] (subEntries ch.toList))))
        else if !(leafResults ch.toList).isEmpty then some (.arr (leafResults ch.toList))
        else if !(pyUpdate [] (subEntries ch.toList)).isEmpty then
          some (.obj (pyUpdate [] (subEntries ch.toList)))
        else none) := by
  simp only [parse_menu_item_recursive, hsep, Bool.false_eq_true, if_false, if_neg hleaf]
  rw [classify_children_spec]
  simp

theorem leafResults_filter_empty {l : List Elem}
    (hf : l.filter (fun c => endsWithList c.tag.data "MenuItem".data) = []) :
    leafResults l = [] := by
  induction l with
  | nil => rfl
  | cons c rest ih =>
    by_cases hmi : endsWithList c.tag.data "MenuItem".data = true
    · rw [List.filter_cons_of_pos (by simp [hmi])] at hf
      exact absurd hf (by simp)
    · have hmi' : endsWithList c.tag.data "MenuItem".data = false := by
        cases h : endsWithList c.tag.data "MenuItem".data
        · rfl
        · exact absurd h hmi
      rw [List.filter_cons_of_neg (by simp [hmi'])] at hf
      rw [leafResults_cons, show bucketLeaf c = none from by rw [bucketLeaf, hmi']; rfl, ih hf]
      rfl

theorem subEntries_filter_empty {l : List Elem}
    (hf : l.filter (fun c => endsWithList c.tag.data "MenuItem".data) = []) :
    subEntries l = [] := by
  induction l with
  | nil => rfl
  | cons c rest ih =>
    by_cases hmi : endsWithList c.tag.data "MenuItem".data = true
    · rw [List.filter_cons_of_pos (by simp [hmi])] at hf
      exact absurd hf (by simp)
    · have hmi' : endsWithList c.tag.data "MenuItem".data = false := by
        cases h : endsWithList c.tag.data "MenuItem".data
        · rfl
        · exact absurd h hmi
      rw [List.filter_cons_of_neg (by simp [hmi'])] at hf
      rw [subEntries_cons, show bucketSub c = none from by rw [bucketSub, hmi']; rfl, ih hf]
      rfl

theorem parse_mixed_branch (t : String) (a : List (String × String)) (ch : ElemList)
    (hsep : endsWithList t.data "Separator".data = false)
    (hleaf : ¬ (getAttr a "Click" = "Button_Click" ∧ getAttr a "Tag" ≠ ""))
    (hl : leafResults ch.toList ≠ []) (hs : subEntries ch.toList ≠ []) :
    parse_menu_item_recursive (Elem.mk t a ch)
      = some (.obj (pyUpdate [("direct", .arr (leafResults ch.toList))]
          (pyUpdate [] (subEntries ch.toList)))) := by
  rw [parse_container_eq t a ch hsep hleaf]
  have hf : (ch.toList.filter (fun c => endsWithList c.tag.data "MenuItem".data)).isEmpty
      = false := by
    cases hff : ch.toList.filter (fun c => endsWithList c.tag.data "MenuItem".data) with
    | nil => exact absurd (leafResults_filter_empty hff) hl
    | cons x xs => rfl
  rw [hf]
  rw [isEmpty_false_of_ne_nil hl, isEmpty_false_of_ne_nil (pyUpdate_nil_left_ne hs)]
  rfl

theorem parse_arr_branch (t : String) (a : List (String × String)) (ch : ElemList)
    (hsep : endsWithList t.data "Separator".data = false)
    (hleaf : ¬ (getAttr a "Click" = "Button_Click" ∧ getAttr a "Tag" ≠ ""))
    (hl : leafResults ch.toList ≠ []) (hs : subEntries ch.toList = []) :
    parse_menu_item_recursive (Elem.mk t a ch) = some (.arr (leafResults ch.toList)) := by
  rw [parse_container_eq t a ch hsep hleaf]
  have hf : (ch.toList.filter (fun c => endsWithList c.tag.data "MenuItem".data)).isEmpty
      = false := by
    cases hff : ch.toList.filter (fun c => endsWithList c.tag.data "MenuItem".data) with
    | nil => exact absurd (leafResults_filter_empty hff) hl
    | cons x xs => rfl
  rw [hf, hs]
  rw [isEmpty_false_of_ne_nil hl]
  rfl

theorem parse_obj_branch (t : String) (a : List (String × String)) (ch : ElemList)
    (hsep : endsWithList t.data "Separator".data = false)
    (hleaf : ¬ (getAttr a "Click" = "Button_Click" ∧ getAttr a "Tag" ≠ ""))
    (hl : leafResults ch.toList = []) (hs : subEntries ch.toList ≠ []) :
    parse_menu_item_recursive (Elem.mk t a ch)
      = some (.obj (pyUpdate [] (subEntries ch.toList))) := by
  rw [parse_container_eq t a ch hsep hleaf]
  have hf : (ch.toList.filter (fun c => endsWithList c.tag.data "MenuItem".data)).isEmpty
      = false := by
    cases hff : ch.toList.filter (fun c => endsWithList c.tag.data "MenuItem".data) with
    | nil => exact absurd (subEntries_filter_empty hff) hs
    | cons x xs => rfl
  rw [hf, hl]
  rw [isEmpty_false_of_ne_nil (pyUpdate_nil_left_ne hs)]
  rfl

theorem pyUpdate_singleton_keys (k0 : String) (x : MenuVal) (es : List (String × MenuVal)) :
    ∃ tl, (pyUpdate [(k0, x)] es).map Prod.fst = k0 :: tl := by
  rw [pyUpdate_keys, foldl_insertKey_eq]
  exact ⟨_, rfl⟩

theorem mem_foldl_insertKey {k : String} (hs : List String) : ∀ ks : List String,
    k ∈ hs.foldl insertKey ks ↔ k ∈ ks ∨ k ∈ hs := by
  induction hs with
  | nil => intro ks; simp
  | cons h rest ih =>
    intro ks
    rw [List.foldl_cons, ih, mem_insertKey]
    constructor
    · rintro ((h1 | h1) | h1)
      · exact Or.inl h1
      · exact Or.inr (h1 ▸ List.mem_cons_self _ _)
      · exact Or.inr (List.mem_cons_of_mem _ h1)
    · rintro (h1 | h1)
      · exact Or.inl (Or.inl h1)
      · rcases List.mem_cons.mp h1 with h2 | h2
        · exact Or.inl (Or.inr h2)
        · exact Or.inr h2

theorem takeWhile_append_stop {p : Char → Bool} (xs : List Char) (y : Char) (zs : List Char)
    (hxs : ∀ c ∈ xs, p c = true) (hy : p y = false) :
    (xs ++ y :: zs).takeWhile p = xs ∧ (xs ++ y :: zs).dropWhile p = y :: zs := by
  induction xs with
  | nil => simp [List.takeWhile_cons, List.dropWhile_cons, hy]
  | cons c rest ih =>
    have hc := hxs c (by simp)
    obtain ⟨h1, h2⟩ := ih (fun d hd => hxs d (by simp [hd]))
    simp [List.takeWhile_cons, List.dropWhile_cons, hc, h1, h2]

theorem leafResults_ne_nil_of_mem {c : Elem} {l : List Elem} (hc : c ∈ l)
    (hmi : endsWithList c.tag.data "MenuItem".data = true) (hl : rawLeafTest c) :
    leafResults l ≠ [] := by
  rw [leafResults_eq_map_filter]
  have hmem : c ∈ l.filter (fun c => endsWithList c.tag.data "MenuItem".data
      && decide (rawLeafTest c)) := List.mem_filter.mpr ⟨hc, by simp [hmi, hl]⟩
  exact List.ne_nil_of_mem (List.mem_map_of_mem leafValOf hmem)

theorem subEntries_key_of_child {c : Elem} {l : List Elem} {key : String} {v : MenuVal}
    (hc : c ∈ l) (hb : bucketSub c = some (key, v)) :
    key ∈ (subEntries l).map Prod.fst := by
  have : (key, v) ∈ subEntries l := by
    unfold subEntries
    rw [List.mem_filterMap]
    exact ⟨c, hc, hb⟩
  exact List.mem_map_of_mem Prod.fst this

/-! ## Claim checks -/

/-- C4 counterexample: `clean_tag` unescapes the amp entity third, before
quot and apos, so the input "&amp;quot;" is double-unescaped down to a
literal double quote, not to the text "&quot;" the claim predicts. -/
theorem clean_tag_amp_counterexample :
    clean_tag "&amp;quot;" = "\"" ∧ ("\"" : String) ≠ "&quot;" :=
  ⟨rfl, by decide⟩

/-- C4 (amended): `clean_tag` unescapes the five entities in the fixed
source order lt, gt, amp, quot, apos — with amp third, not last.
Unescaping amp therefore re-introduces quot/apos entity text that the two
later replacements then unescape (double-unescape), while lt/gt entity text
produced by the amp replacement survives because those replacements already
ran. -/
theorem clean_tag_order_amp_third :
    clean_tag "&amp;quot;" = "\"" ∧ clean_tag "&amp;apos;" = "'" ∧
    clean_tag "&amp;lt;" = "&lt;" ∧ clean_tag "&amp;gt;" = "&gt;" ∧
    clean_tag "A &lt;B&gt; &amp; C" = "A <B> & C" :=
  ⟨rfl, rfl, rfl, rfl, rfl⟩

/-- C5: `clean_header` on the resource reference for InsertFunctionHeader
strips the braces and dotted prefix and splits the PascalCase identifier
with spaces. -/
theorem clean_header_insert_function :
    clean_header "{x:Static wpf:ConstantsResources.InsertFunctionHeader}"
      = "Insert Function Header" := rfl

/-- C7: when the external parser fails on the wrapped input (the
`ET.ParseError` case), `parse_xaml_insert_menu` returns the empty document,
not an exception and not a partial result. -/
theorem parse_failure_returns_empty (fromstring : String → Except String Elem)
    (xaml_content msg : String)
    (h : fromstring (wrap_content xaml_content) = .error msg) :
    parse_xaml_insert_menu fromstring xaml_content = [] := by
  rw [parse_xaml_insert_menu, h]

/-- Witness for C7 at a constantly failing parser. -/
theorem parse_failure_returns_empty_witness :
    ((fun _ : String => (Except.error "ParseError" : Except String Elem))
        (wrap_content "<junk") = Except.error "ParseError") ∧
    parse_xaml_insert_menu (fun _ => Except.error "ParseError") "<junk" = [] :=
  ⟨rfl, parse_failure_returns_empty _ "<junk" "ParseError" rfl⟩

/-- C9: `clean_tag` returns the empty string exactly on the empty string
(every entity replacement rewrites a non-empty substring to one character),
so the source's leaf test on the raw tag coincides with the spec's test on
the cleaned tag. -/
theorem clean_tag_empty_iff_leaf_test :
    (∀ s : String, clean_tag s = "" ↔ s = "") ∧
    (∀ click tag : String,
      (click = "Button_Click" ∧ tag ≠ "") ↔
        (click = "Button_Click" ∧ clean_tag tag ≠ "")) := by
  constructor
  · exact clean_tag_eq_empty_iff
  · intro click tag
    constructor
    · rintro ⟨h1, h2⟩
      exact ⟨h1, fun h => h2 ((clean_tag_eq_empty_iff tag).mp h)⟩
    · rintro ⟨h1, h2⟩
      exact ⟨h1, fun h => h2 ((clean_tag_eq_empty_iff tag).mpr h)⟩

/-- Witness for C9 at a concrete tag. -/
theorem clean_tag_empty_iff_leaf_test_witness :
    clean_tag "&lt;" = "" ↔ ("&lt;" : String) = "" :=
  clean_tag_empty_iff_leaf_test.1 "&lt;"

/-- C8 counterexample: `clean_header` never trims its input.  The input
" {A.B}" (leading space) has whitespace-trimmed form "{A.B}", which is
brace-wrapped and matches the last-dot pattern (indeed the trimmed form
extracts to "B"), yet `clean_header` returns the raw input unchanged, not
the extracted identifier. -/
theorem clean_header_no_trim_counterexample :
    trimmedData " {A.B}" = "{A.B}".data ∧
    clean_header "{A.B}" = "B" ∧
    clean_header " {A.B}" = " {A.B}" ∧
    (" {A.B}" : String) ≠ "B" :=
  ⟨rfl, rfl, rfl, by decide⟩

/-- C8 (amended): for every input string that ITSELF (no trimming) starts
with an opening brace and ends with a last-dot-identifier-closing-brace
pattern — data of the form '\x7b' :: mid ++ '.' :: seg ++ ['\x7d'] with
`seg` non-empty and free of dots and closing braces — `clean_header`
extracts the trailing identifier `seg` and returns it with the camel-case
split and underscore replacement applied, rather than returning the raw
input. -/
theorem clean_header_extracts_last_ident (s : String) (mid seg : List Char)
    (hdata : s.data = '{' :: mid ++ '.' :: seg ++ ['}'])
    (hne : seg ≠ [])
    (hseg : ∀ c ∈ seg, c ≠ '.' ∧ c ≠ '}') :
    clean_header s = String.mk (underscoreToSpace (subLowerUpper (subUpperRun seg))) := by
  have hsne : s ≠ "" := by
    intro h
    rw [string_eq_empty_iff, hdata] at h
    exact absurd h (by simp)
  have hstart : startsWithLBrace s.data = true := by rw [hdata]; rfl
  have hconcat : s.data = ('{' :: mid ++ '.' :: seg) ++ ['}'] := by rw [hdata]
  have hend : endsWithRBrace s.data = true := by
    rw [endsWithRBrace, hconcat, List.getLast?_concat]
    simp
  have hrev : s.data.reverse = '}' :: (seg.reverse ++ '.' :: (mid.reverse ++ ['{'])) := by
    rw [hdata]
    simp
  have hxs : ∀ c ∈ seg.reverse, (fun c => decide (c ≠ '.' ∧ c ≠ '}')) c = true := by
    intro c hc
    have := hseg c (List.mem_reverse.mp hc)
    simp [this.1, this.2]
  obtain ⟨ht, hd⟩ := takeWhile_append_stop seg.reverse '.' (mid.reverse ++ ['{']) hxs rfl
  have hextract : extractIdent s.data = some seg := by
    rw [extractIdent, hrev]
    simp only [ht, hd]
    rw [if_neg (by simp [hne])]
    rw [List.reverse_reverse]
  rw [clean_header, if_neg hsne]
  rw [show (startsWithLBrace s.data && endsWithRBrace s.data) = true from by
    rw [hstart, hend]; rfl]
  simp only [if_true, hextract]

/-- Witness for the amended C8 at a concrete resource reference. -/
theorem clean_header_extracts_last_ident_witness :
    (("{A.Bc}" : String).data = '{' :: ['A'] ++ '.' :: ['B', 'c'] ++ ['}']) ∧
    clean_header "{A.Bc}" = String.mk (underscoreToSpace (subLowerUpper (subUpperRun ['B', 'c']))) :=
  ⟨rfl, clean_header_extracts_last_ident "{A.Bc}" ['A'] ['B', 'c'] rfl (by decide)
    (by decide)⟩

/-- C1 counterexample: in `exDupKeyNode` two non-leaf children share the
cleaned header "K".  The first child's classification holds the leaf with
tag "a", the second the leaf with tag "b"; the classifier's subcategories
map ends up holding the SECOND child's classification under "K" — later
duplicates overwrite, first occurrence does not win. -/
theorem duplicate_subcategory_counterexample :
    parse_menu_item_recursive exSubKA = some (.arr [leafObj "a" "" ""]) ∧
    parse_menu_item_recursive exSubKB = some (.arr [leafObj "b" "" ""]) ∧
    parse_menu_item_recursive exDupKeyNode = some (.obj [("K", .arr [leafObj "b" "" ""])]) ∧
    (MenuVal.arr [leafObj "b" "" ""]) ≠ (MenuVal.arr [leafObj "a" "" ""]) := by
  refine ⟨rfl, rfl, rfl, ?_⟩
  intro h
  rw [leafObj, leafObj] at h
  injection h with h1
  injection h1 with h2
  injection h2 with h3
  injection h3 with h4
  injection h4 with h5 h6
  injection h6 with h7
  exact absurd h7 (by decide)

/-- C1 (amended): when non-leaf, non-null-classifying children of one
container share a cleaned header key, the subcategories map keeps the key at
its first-encountered position but the value is overwritten by each later
duplicate, so the last duplicate's classification wins.  Here: three
children with keys k, k2, k — the result maps k (still in first position)
to the THIRD child's value and k2 to the second's. -/
theorem duplicate_subcategory_last_wins
    (t : String) (a : List (String × String)) (c1 c2 c3 : Elem) (k k2 : String)
    (v1 v2 v3 : MenuVal)
    (hsep : endsWithList t.data "Separator".data = false)
    (hleaf : ¬ (getAttr a "Click" = "Button_Click" ∧ getAttr a "Tag" ≠ ""))
    (h1m : endsWithList c1.tag.data "MenuItem".data = true)
    (h2m : endsWithList c2.tag.data "MenuItem".data = true)
    (h3m : endsWithList c3.tag.data "MenuItem".data = true)
    (h1l : ¬ rawLeafTest c1) (h2l : ¬ rawLeafTest c2) (h3l : ¬ rawLeafTest c3)
    (h1p : parse_menu_item_recursive c1 = some v1)
    (h2p : parse_menu_item_recursive c2 = some v2)
    (h3p : parse_menu_item_recursive c3 = some v3)
    (h1h : clean_header (c1.get "Header") = k)
    (h2h : clean_header (c2.get "Header") = k2)
    (h3h : clean_header (c3.get "Header") = k)
    (hk : k ≠ "") (hk2 : k2 ≠ "") (hkk : k ≠ k2) :
    parse_menu_item_recursive (Elem.mk t a (.cons c1 (.cons c2 (.cons c3 .nil))))
      = some (.obj [(k, v3), (k2, v2)]) := by
  have hb1 : bucketSub c1 = some (k, v1) := by
    rw [bucketSub, h1m, h1p]
    simp [h1l, h1h, hk]
  have hb2 : bucketSub c2 = some (k2, v2) := by
    rw [bucketSub, h2m, h2p]
    simp [h2l, h2h, hk2]
  have hb3 : bucketSub c3 = some (k, v3) := by
    rw [bucketSub, h3m, h3p]
    simp [h3l, h3h, hk]
  have hbl1 : bucketLeaf c1 = none := by rw [bucketLeaf, h1m, h1p]; simp [h1l]
  have hbl2 : bucketLeaf c2 = none := by rw [bucketLeaf, h2m, h2p]; simp [h2l]
  have hbl3 : bucketLeaf c3 = none := by rw [bucketLeaf, h3m, h3p]; simp [h3l]
  have hlr : leafResults [c1, c2, c3] = [] := by
    rw [leafResults_cons, leafResults_cons, leafResults_cons, hbl1, hbl2, hbl3]
    rfl
  have hse : subEntries [c1, c2, c3] = [(k, v1), (k2, v2), (k, v3)] := by
    rw [subEntries_cons, subEntries_cons, subEntries_cons, hb1, hb2, hb3]
    rfl
  have hup : pyUpdate [] [(k, v1), (k2, v2), (k, v3)] = [(k, v3), (k2, v2)] := by
    rw [pyUpdate_cons, pyUpdate_cons, pyUpdate_cons, pyUpdate_nil]
    rw [show dictSet [] k v1 = [(k, v1)] from rfl]
    rw [dictSet, if_neg hkk]
    rw [show dictSet [] k2 v2 = [(k2, v2)] from rfl]
    rw [dictSet, if_pos rfl]
  have hlr' : leafResults (ElemList.cons c1 (.cons c2 (.cons c3 .nil))).toList = [] := hlr
  have hse' : subEntries (ElemList.cons c1 (.cons c2 (.cons c3 .nil))).toList
      = [(k, v1), (k2, v2), (k, v3)] := hse
  have hmain := parse_obj_branch t a (.cons c1 (.cons c2 (.cons c3 .nil))) hsep hleaf hlr'
    (by rw [hse']; simp)
  rw [hmain, hse', hup]

/-- Witness for the amended C1: a container with subcategory children keyed
"K", "K2", "K"; the result keeps "K" first but holds the third child's
value. -/
theorem duplicate_subcategory_last_wins_witness :
    (¬ rawLeafTest exSubKA) ∧
    parse_menu_item_recursive exTripleNode
      = some (.obj [("K", .arr [leafObj "b" "" ""]), ("K2", .arr [leafObj "a" "" ""])]) :=
  ⟨by decide,
    duplicate_subcategory_last_wins "MenuItem" [("Header", "S")] exSubKA exSubK2 exSubKB
      "K" "K2" (.arr [leafObj "a" "" ""]) (.arr [leafObj "a" "" ""]) (.arr [leafObj "b" "" ""])
      rfl (by decide) rfl rfl rfl (by decide) (by decide) (by decide) rfl rfl rfl rfl rfl rfl
      (by decide) (by decide) (by decide)⟩

/-- C2 counterexample: a separator element carrying the leaf attributes
(`Click='Button_Click'`, non-empty `Tag`) satisfies the claim's right-hand
side but classifies to `None` — the separator check runs before the leaf
test, so the claimed equivalence is false over all nodes. -/
theorem leaf_iff_counterexample :
    ¬ (∀ item : Elem,
      (∃ v, parse_menu_item_recursive item = some v ∧ IsLeafAction v) ↔
        (item.get "Click" = "Button_Click" ∧ clean_tag (item.get "Tag") ≠ "")) := by
  intro hall
  have h := (hall exSeparator).mpr (by constructor <;> decide)
  obtain ⟨v, hv, -⟩ := h
  rw [show parse_menu_item_recursive exSeparator = none from rfl] at hv
  exact Option.noConfusion hv

/-- C2 (amended): for every node whose tag name does NOT end in "Separator"
(separators are pruned by an earlier check), the classifier returns a
LeafAction exactly when the raw click handler is 'Button_Click' and the
cleaned tag is non-empty. -/
theorem leaf_iff_for_non_separator (item : Elem)
    (hsep : endsWithList item.tag.data "Separator".data = false) :
    (∃ v, parse_menu_item_recursive item = some v ∧ IsLeafAction v) ↔
      (item.get "Click" = "Button_Click" ∧ clean_tag (item.get "Tag") ≠ "") := by
  obtain ⟨t, a, ch⟩ := item
  have hsep' : endsWithList t.data "Separator".data = false := hsep
  by_cases hL : getAttr a "Click" = "Button_Click" ∧ getAttr a "Tag" ≠ ""
  · apply iff_of_true
    · refine ⟨leafObj (clean_tag (getAttr a "Tag")) (clean_header (getAttr a "Header"))
        (getAttr a "Icon"), ?_, ⟨_, _, _, rfl⟩⟩
      simp only [parse_menu_item_recursive, hsep', Bool.false_eq_true, if_false, if_pos hL]
    · exact ⟨hL.1, fun hemp => hL.2 ((clean_tag_eq_empty_iff _).mp hemp)⟩
  · apply iff_of_false
    · rintro ⟨v, hv, t', d', i', rfl⟩
      rw [parse_container_eq t a ch hsep' hL] at hv
      split at hv
      · exact Option.noConfusion hv
      · split at hv
        · rw [Option.some.injEq] at hv
          obtain ⟨tl, htl⟩ := pyUpdate_singleton_keys "direct"
            (.arr (leafResults ch.toList)) (pyUpdate [] (subEntries ch.toList))
          rw [leafObj] at hv
          injection hv with hentries
          rw [hentries, List.map_cons] at htl
          injection htl with h1
          exact absurd (show ("tag" : String) = "direct" from h1) (by decide)
        · split at hv
          · rw [Option.some.injEq, leafObj] at hv
            exact MenuVal.noConfusion hv
          · split at hv
            · rw [Option.some.injEq, leafObj] at hv
              injection hv with hentries
              have hmem : ("tag", MenuVal.str t') ∈ pyUpdate [] (subEntries ch.toList) := by
                rw [hentries]
                exact List.mem_cons_self _ _
              rcases mem_pyUpdate hmem with h1 | h1
              · exact absurd h1 (by simp)
              · obtain ⟨c, hc⟩ := subEntries_val h1
                rcases parse_some_shape hc with ⟨e, he⟩ | ⟨e, he⟩ <;>
                  exact MenuVal.noConfusion he
            · exact Option.noConfusion hv
    · rintro ⟨hc, hct⟩
      exact hL ⟨hc, fun htag => hct ((clean_tag_eq_empty_iff _).mpr htag)⟩

/-- Witness for the amended C2 at a concrete plain leaf item. -/
theorem leaf_iff_for_non_separator_witness :
    (endsWithList (Elem.tag exLeafX).data "Separator".data = false) ∧
    ((∃ v, parse_menu_item_recursive exLeafX = some v ∧ IsLeafAction v) ↔
      (exLeafX.get "Click" = "Button_Click" ∧ clean_tag (exLeafX.get "Tag") ≠ "")) :=
  ⟨by decide, leaf_iff_for_non_separator exLeafX (by decide)⟩

/-- C3: shape determinism of a container node.  With `(leafs, subcats)` the
classifier's two child buckets: `leafs` is exactly the leaf `item_data` of
the raw-leaf MenuItem children in document order; the subcategory keys are
the cleaned headers of the eligible children deduplicated to first
occurrence, in first-encountered order; a mixed node returns the mapping
`{'direct': leafs}` updated with `subcats` (Python `dict.update` semantics),
whose key order is `direct` first and then the subcategory keys; only-leaf
nodes return the bare ordered sequence; only-subcategory nodes return the
bare mapping. -/
theorem container_shape_determinism
    (t : String) (a : List (String × String)) (children : ElemList)
    (leafs : List MenuVal) (subcats : List (String × MenuVal))
    (hsep : endsWithList t.data "Separator".data = false)
    (hleaf : ¬ (getAttr a "Click" = "Button_Click" ∧ getAttr a "Tag" ≠ ""))
    (hst : classify_children ([], []) children = (leafs, subcats)) :
    leafs = (children.toList.filter (fun c => endsWithList c.tag.data "MenuItem".data
        && decide (rawLeafTest c))).map leafValOf ∧
    subcats.map Prod.fst = dedupFirst (subcatHeaders children.toList) ∧
    (leafs ≠ [] → subcats ≠ [] →
      parse_menu_item_recursive (Elem.mk t a children)
          = some (.obj (pyUpdate [("direct", .arr leafs)] subcats)) ∧
      (pyUpdate [("direct", .arr leafs)] subcats).map Prod.fst
        = "direct" :: (subcats.map Prod.fst).filter (fun x => !decide (x = "direct"))) ∧
    (leafs ≠ [] → subcats = [] →
      parse_menu_item_recursive (Elem.mk t a children) = some (.arr leafs)) ∧
    (subcats ≠ [] → leafs = [] →
      parse_menu_item_recursive (Elem.mk t a children) = some (.obj subcats)) := by
  have hspec := classify_children_spec children ([], [])
  rw [hst] at hspec
  have hlfs : leafs = leafResults children.toList := by
    have h := congrArg Prod.fst hspec
    simpa using h
  have hsub : subcats = pyUpdate [] (subEntries children.toList) := by
    have h := congrArg Prod.snd hspec
    simpa using h
  have hsubnodup : (subcats.map Prod.fst).Nodup := by
    rw [hsub]
    exact pyUpdate_keys_nodup _ [] (by simp)
  refine ⟨by rw [hlfs, leafResults_eq_map_filter], ?_, ?_, ?_, ?_⟩
  · rw [hsub, pyUpdate_keys, foldl_insertKey_eq]
    rfl
  · intro h1 h2
    have hs : subEntries children.toList ≠ [] := by
      intro hnil
      rw [hsub, hnil] at h2
      exact h2 rfl
    constructor
    · rw [hlfs, hsub]
      exact parse_mixed_branch t a children hsep hleaf (hlfs ▸ h1) hs
    · rw [pyUpdate_keys, foldl_insertKey_eq,
        show List.map Prod.fst [("direct", MenuVal.arr leafs)] = ["direct"] from rfl,
        dedupFirstAux_eq_filter (subcats.map Prod.fst) ["direct"] hsubnodup]
      show "direct" :: (subcats.map Prod.fst).filter (fun h => !decide (h ∈ (["direct"] : List String)))
        = "direct" :: (subcats.map Prod.fst).filter (fun x => !decide (x = "direct"))
      congr 1
      apply List.filter_congr
      intro x hx
      simp
  · intro h1 h2
    have hs : subEntries children.toList = [] := by
      by_contra hne
      exact pyUpdate_nil_left_ne hne (hsub ▸ h2.symm).symm
    rw [hlfs]
    exact parse_arr_branch t a children hsep hleaf (hlfs ▸ h1) hs
  · intro h1 h2
    have hs : subEntries children.toList ≠ [] := by
      intro hnil
      rw [hsub, hnil] at h1
      exact h1 rfl
    rw [hsub]
    exact parse_obj_branch t a children hsep hleaf (hlfs ▸ h2) hs

/-- Witness for C3 at a concrete mixed container (one leaf child, one
subcategory child). -/
theorem container_shape_determinism_witness :
    (classify_children ([], []) (ElemList.cons exLeafT1 (.cons exSubSub .nil))
        = ([leafObj "t1" "L" ""], [("Sub", .arr [leafObj "b" "" ""])])) ∧
    ([leafObj "t1" "L" ""]
        = ((ElemList.cons exLeafT1 (.cons exSubSub .nil)).toList.filter
            (fun c => endsWithList c.tag.data "MenuItem".data
              && decide (rawLeafTest c))).map leafValOf) ∧
    ([("Sub", MenuVal.arr [leafObj "b" "" ""])].map Prod.fst
        = dedupFirst (subcatHeaders (ElemList.cons exLeafT1 (.cons exSubSub .nil)).toList)) ∧
    parse_menu_item_recursive exMixedNode
        = some (.obj (pyUpdate [("direct", .arr [leafObj "t1" "L" ""])]
            [("Sub", .arr [leafObj "b" "" ""])])) ∧
    (pyUpdate [("direct", MenuVal.arr [leafObj "t1" "L" ""])]
          [("Sub", MenuVal.arr [leafObj "b" "" ""])]).map Prod.fst
        = "direct" :: ([("Sub", MenuVal.arr [leafObj "b" "" ""])].map Prod.fst).filter
            (fun x => !decide (x = "direct")) := by
  have h := container_shape_determinism "MenuItem" [("Header", "S")]
    (ElemList.cons exLeafT1 (.cons exSubSub .nil))
    [leafObj "t1" "L" ""] [("Sub", .arr [leafObj "b" "" ""])]
    rfl (by decide) rfl
  obtain ⟨ha, hb, hc, -, -⟩ := h
  obtain ⟨hc1, hc2⟩ := hc (by simp) (by simp)
  exact ⟨rfl, ha, hb, hc1, hc2⟩

/-- C6: a direct menu-item child of the root that itself passes the leaf
test classifies to the bare LeafAction — the leaf test runs before the
children-check, so its children (if any) are never consulted — and the
root-level pass assigns that bare LeafAction directly under the cleaned
section key. -/
theorem root_leaf_section (c : Elem)
    (hmi : endsWithList c.tag.data "MenuItem".data = true)
    (hclick : c.get "Click" = "Button_Click") (htag : c.get "Tag" ≠ "")
    (hhead : c.get "Header" ≠ "") :
    parse_menu_item_recursive c = some (leafValOf c) ∧
    IsLeafAction (leafValOf c) ∧
    rootLoop [] (.cons c .nil) = [(clean_header (c.get "Header"), leafValOf c)] ∧
    (∀ (fromstring : String → Except String Elem) (xaml rt : String)
        (ra : List (String × String)),
      fromstring (wrap_content xaml) = .ok (Elem.mk rt ra (.cons c .nil)) →
      parse_xaml_insert_menu fromstring xaml
        = [(clean_header (c.get "Header"), leafValOf c)]) := by
  have hp : parse_menu_item_recursive c = some (leafValOf c) :=
    parse_of_rawLeaf hmi ⟨hclick, htag⟩
  have htruthy : pyTruthy (leafValOf c) = true := pyTruthy_leafObj _ _ _
  have hroot : rootLoop [] (.cons c .nil)
      = [(clean_header (c.get "Header"), leafValOf c)] := by
    rw [rootLoop, hmi]
    simp only [if_true, if_neg hhead, hp, htruthy]
    rw [rootLoop]
    rfl
  refine ⟨hp, ⟨_, _, _, rfl⟩, hroot, ?_⟩
  intro fromstring xaml rt ra hok
  rw [parse_xaml_insert_menu, hok]
  exact hroot

/-- Witness for C6: a root whose single child is a leaf-test-passing menu
item that also has a child of its own; the section value is the bare
LeafAction. -/
theorem root_leaf_section_witness :
    ((exRootLeaf.get "Tag" ≠ "") ∧ (exRootLeaf.get "Header" ≠ "")) ∧
    parse_xaml_insert_menu
        (fun _ => Except.ok (Elem.mk "root" [] (.cons exRootLeaf .nil))) ""
      = [("H", leafValOf exRootLeaf)] := by
  refine ⟨⟨by decide, by decide⟩, ?_⟩
  have h := root_leaf_section exRootLeaf (by decide) (by decide) (by decide) (by decide)
  exact h.2.2.2 (fun _ => Except.ok (Elem.mk "root" [] (.cons exRootLeaf .nil))) "" "root" []
    rfl

/-- C10 counterexample: `exPrunedDirectNode` has a leaf-action child and a
non-leaf child whose cleaned header is exactly "direct", but that child is
childless, classifies to None and is pruned; the node's result is the bare
leaf sequence — no mapping is produced, nothing is overwritten and the leaf
actions are NOT lost — so the claim is false as stated. -/
theorem direct_overwrite_counterexample :
    rawLeafTest exLeafT1 ∧
    (¬ rawLeafTest (Elem.mk "MenuItem" [("Header", "direct")] .nil)) ∧
    clean_header ((Elem.mk "MenuItem" [("Header", "direct")] .nil).get "Header")
      = "direct" ∧
    parse_menu_item_recursive (Elem.mk "MenuItem" [("Header", "direct")] .nil) = none ∧
    parse_menu_item_recursive exPrunedDirectNode = some (.arr [leafObj "t1" "L" ""]) :=
  ⟨by decide, by decide, rfl, rfl, rfl⟩

/-- C10 (amended): for every container node with a raw-leaf MenuItem child
and a non-leaf MenuItem child with cleaned header "direct" whose own
classification is non-null (so that a subcategory entry is actually
produced), the mixed-node result's "direct" entry holds the subcategory's
value: the `update` overwrote the reserved leaf-action list. -/
theorem direct_subcategory_overwrites
    (t : String) (a : List (String × String)) (children : ElemList)
    (leafs : List MenuVal) (subcats : List (String × MenuVal))
    (c1 c2 : Elem) (v2 : MenuVal)
    (hsep : endsWithList t.data "Separator".data = false)
    (hleaf : ¬ (getAttr a "Click" = "Button_Click" ∧ getAttr a "Tag" ≠ ""))
    (hst : classify_children ([], []) children = (leafs, subcats))
    (hc1 : c1 ∈ children.toList)
    (hc1m : endsWithList c1.tag.data "MenuItem".data = true)
    (hc1l : rawLeafTest c1)
    (hc2 : c2 ∈ children.toList)
    (hc2m : endsWithList c2.tag.data "MenuItem".data = true)
    (hc2l : ¬ rawLeafTest c2)
    (hc2p : parse_menu_item_recursive c2 = some v2)
    (hc2h : clean_header (c2.get "Header") = "direct") :
    ∃ w, parse_menu_item_recursive (Elem.mk t a children)
        = some (.obj (pyUpdate [("direct", .arr leafs)] subcats)) ∧
      dictGet subcats "direct" = some w ∧
      dictGet (pyUpdate [("direct", .arr leafs)] subcats) "direct" = some w := by
  have hspec := classify_children_spec children ([], [])
  rw [hst] at hspec
  have hlfs : leafs = leafResults children.toList := by
    have h := congrArg Prod.fst hspec
    simpa using h
  have hsub : subcats = pyUpdate [] (subEntries children.toList) := by
    have h := congrArg Prod.snd hspec
    simpa using h
  have hsubnodup : (subcats.map Prod.fst).Nodup := by
    rw [hsub]
    exact pyUpdate_keys_nodup _ [] (by simp)
  have hl : leafs ≠ [] := by
    rw [hlfs]
    exact leafResults_ne_nil_of_mem hc1 hc1m hc1l
  have hb2 : bucketSub c2 = some ("direct", v2) := by
    rw [bucketSub, hc2m, hc2p]
    simp [hc2l, hc2h]
  have hdk : "direct" ∈ subcats.map Prod.fst := by
    rw [hsub, pyUpdate_keys, mem_foldl_insertKey]
    exact Or.inr (subEntries_key_of_child hc2 hb2)
  have hget : dictGet subcats "direct" ≠ none := fun h => dictGet_eq_none_iff.mp h hdk
  obtain ⟨w, hw⟩ : ∃ w, dictGet subcats "direct" = some w := by
    cases hg : dictGet subcats "direct" with
    | none => exact absurd hg hget
    | some w => exact ⟨w, rfl⟩
  have hs : subEntries children.toList ≠ [] := by
    intro hnil
    rw [hsub, hnil] at hdk
    exact absurd hdk (by simp [pyUpdate_nil])
  refine ⟨w, ?_, hw, ?_⟩
  · rw [hlfs, hsub]
    exact parse_mixed_branch t a children hsep hleaf (hlfs ▸ hl) hs
  · exact dictGet_pyUpdate_mem subcats _ _ _ hsubnodup hw

/-- Witness for the amended C10 at a concrete mixed container whose
subcategory child is named "direct". -/
theorem direct_subcategory_overwrites_witness :
    (rawLeafTest exLeafT1 ∧ clean_header (exSubDirect.get "Header") = "direct") ∧
    (∃ w, parse_menu_item_recursive exDirectNode
        = some (.obj (pyUpdate [("direct", .arr [leafObj "t1" "L" ""])]
            [("direct", .arr [leafObj "b" "" ""])])) ∧
      dictGet [("direct", MenuVal.arr [leafObj "b" "" ""])] "direct" = some w ∧
      dictGet (pyUpdate [("direct", .arr [leafObj "t1" "L" ""])]
          [("direct", .arr [leafObj "b" "" ""])]) "direct" = some w) := by
  refine ⟨⟨by decide, rfl⟩, ?_⟩
  exact direct_subcategory_overwrites "MenuItem" [("Header", "S")]
    (.cons exLeafT1 (.cons exSubDirect .nil))
    [leafObj "t1" "L" ""] [("direct", .arr [leafObj "b" "" ""])]
    exLeafT1 exSubDirect (.arr [leafObj "b" "" ""])
    rfl (by decide) rfl
    (List.mem_cons_self _ _) (by decide) (by decide)
    (List.mem_cons_of_mem _ (List.mem_cons_self _ _)) (by decide) (by decide) rfl rfl
